import Mathlib

/-!
Verification of the round-based skill-tiered matchmaking engine.

The development shallowly embeds the TypeScript sources:
  - src/matchmaking.ts   (tier-aware engine: createSkillGroups, pairing cost,
                          greedy pairing, odd-player carry-over, match history)
  - the tier-naive engine variant (same greedy core, no tiers, recency 0.2)
  - the rating-table loader behaviour around unknown players

Modelling conventions:
  - JavaScript floating point numbers are modelled by the rationals; every
    arithmetic operation the code performs (+, -, *, /, abs, comparisons) is
    exact on the inputs the claims quantify over.
  - Player identifiers (strings in the source) are modelled by naturals; only
    equality of identifiers is ever used.
  - The external openskill library is a collaborator: predictDraw is a
    function parameter, and the prior rating produced by rating() is a
    parameter as well.
  - Array.prototype.sort with a comparator derived from a numeric key is a
    stable sort (ES2019); any stable sort for the same total preorder computes
    the same list, so it is modelled by a stable insertion sort.
  - Tier labels are built from the group index via an injective naming scheme
    (distinct rank names for indices 0..9 and distinct numbered overflow names
    afterwards, each also embedding the min/max ordinals); the engine only
    compares labels for equality, so the label is modelled by the group index.
  - The greedy pairing loop marks players as paired and skips them; this is
    modelled by a recursion that removes the chosen partner from the remaining
    list, with an explicit fuel argument (the list length) so that the
    function is structurally recursive and computable by the kernel.
-/

namespace Skillsheet

open scoped List

/-- Rating state of one player, owned by the external rating model. -/
structure Rating where
  mu : ℚ
  sigma : ℚ
  deriving DecidableEq, Repr

/-- One entry of ranks.json: identifier, rating, and the scalar ordinal. -/
structure PlayerRating where
  player : Nat
  rating : Rating
  ordinal : ℚ
  deriving DecidableEq, Repr

/-- One generated pairing, as produced by the greedy engine. -/
structure Match where
  player1 : Nat
  player2 : Nat
  skillDifference : ℚ
  averageSkill : ℚ
  confidence : ℚ
  deriving DecidableEq, Repr

/-- The result record returned by createMatchmaking (the generation timestamp
is ambient wall-clock output and is not modelled). -/
structure MatchmakingResults where
  «matches» : List Match
  totalActivePlayers : Nat
  unmatchedPlayers : List Nat
  algorithm : String
  deriving DecidableEq, Repr

/-- One persisted recent pairing. -/
structure HistoricalMatch where
  player1 : Nat
  player2 : Nat
  timestamp : String
  deriving DecidableEq, Repr

/-- The persisted rolling window of recent pairings. -/
structure MatchHistory where
  «matches» : List HistoricalMatch
  lookbackRounds : Nat
  deriving DecidableEq, Repr

/-- One skill tier; the name field models the unique human-readable label by
the group index that determines it (labels are only compared for equality). -/
structure SkillGroup where
  name : Nat
  players : List PlayerRating
  minOrdinal : ℚ
  maxOrdinal : ℚ
  deriving DecidableEq, Repr

/-! ### Stable sorting (model of Array.prototype.sort with a key comparator) -/

/-- Insert an element into a list, before the first element it is le-related
to; the building block of the stable insertion sort. -/
def insertSorted (le : α → α → Bool) (a : α) : List α → List α
  | [] => [a]
  | b :: l => if le a b then a :: b :: l else b :: insertSorted le a l

/-- Stable sort by the boolean relation le; extensionally equal to the stable
JavaScript sort for any total transitive le. -/
def stableSort (le : α → α → Bool) : List α → List α
  | [] => []
  | a :: l => insertSorted le a (stableSort le l)

/-- Descending comparison by a rational key, as a boolean relation. -/
def keyDesc (f : α → ℚ) (a b : α) : Bool := f b ≤ f a

/-! ### Match history store (matchmaking.ts lines 56-105) -/

/-- Direct translation of hasRecentMatch: does the unordered pair appear in
the retained window. -/
def hasRecentMatch (player1 player2 : Nat) (history : MatchHistory) : Bool :=
  history.«matches».any fun m =>
    (m.player1 == player1 && m.player2 == player2) ||
    (m.player1 == player2 && m.player2 == player1)

/-- Direct translation of updateMatchHistory: stamp the new matches, prepend
them, truncate to lookbackRounds * 15 entries. The wall-clock timestamp is an
explicit parameter. -/
def updateMatchHistory (newMatches : List Match) (history : MatchHistory)
    (currentTimestamp : String) : MatchHistory :=
  let newHistoricalMatches := newMatches.map fun m =>
    { player1 := m.player1, player2 := m.player2, timestamp := currentTimestamp : HistoricalMatch }
  let updatedMatches := newHistoricalMatches ++ history.«matches»
  let maxMatches := history.lookbackRounds * 15
  { «matches» := updatedMatches.take maxMatches
    lookbackRounds := history.lookbackRounds }

/-- Outcome of reading the persisted history file: absent, present but not
parseable, or parsed. -/
inductive PersistedHistory where
  | missing
  | corrupt
  | valid (h : MatchHistory)
  deriving DecidableEq, Repr

/-- Direct translation of loadMatchHistory: a missing file and a parse
failure both fall through to the fresh empty history with lookbackRounds 3. -/
def loadMatchHistory : PersistedHistory → MatchHistory
  | .missing => { «matches» := [], lookbackRounds := 3 }
  | .corrupt => { «matches» := [], lookbackRounds := 3 }
  | .valid h => h

/-- Iterate rounds that each record a single pairing, as in the history
pruning scenario of the spec. -/
def foldRounds (rounds : List Match) (t : String) (h : MatchHistory) : MatchHistory :=
  rounds.foldl (fun acc m => updateMatchHistory [m] acc t) h

/-! ### Skill tier builder (matchmaking.ts lines 107-196) -/

/-- The adaptive maximum ordinal range of a tier, keyed by the ordinal of the
first player of the tier (matchmaking.ts lines 133-138). -/
def adaptiveRange (groupStartOrdinal : ℚ) : ℚ :=
  if groupStartOrdinal > 15 then 2
  else if groupStartOrdinal > 5 then 2.5
  else 3

/-- Largest ordinal of a nonempty player list (Math.max over the ordinals);
0 for the empty list, which createGroup is never called on. -/
def maxOrdinalOf : List PlayerRating → ℚ
  | [] => 0
  | p :: ps => ps.foldl (fun m q => max m q.ordinal) p.ordinal

/-- Smallest ordinal of a nonempty player list (Math.min over the ordinals). -/
def minOrdinalOf : List PlayerRating → ℚ
  | [] => 0
  | p :: ps => ps.foldl (fun m q => min m q.ordinal) p.ordinal

/-- Direct translation of createGroup; the unique label is modelled by the
group index that determines it. -/
def createGroup (players : List PlayerRating) (groupIndex : Nat) : SkillGroup :=
  { name := groupIndex
    players := players
    minOrdinal := minOrdinalOf players
    maxOrdinal := maxOrdinalOf players }

/-- The walk of createSkillGroups over the ordinal-sorted list: grow the
current tier unless the gap from the first player of the tier exceeds the
adaptive range or the tier already has 6 players; then flush and restart. -/
def groupsLoop : List PlayerRating → List PlayerRating → List SkillGroup → List SkillGroup
  | [], [], groups => groups
  | [], c :: cs, groups => groups ++ [createGroup (c :: cs) groups.length]
  | p :: rest, [], groups => groupsLoop rest [p] groups
  | p :: rest, c :: cs, groups =>
    if c.ordinal - p.ordinal > adaptiveRange c.ordinal ∨ 6 ≤ (c :: cs).length then
      groupsLoop rest [p] (groups ++ [createGroup (c :: cs) groups.length])
    else
      groupsLoop rest (c :: cs ++ [p]) groups

/-- Direct translation of createSkillGroups: sort descending by ordinal and
walk the sorted list. -/
def createSkillGroups (players : List PlayerRating) : List SkillGroup :=
  groupsLoop (stableSort (keyDesc PlayerRating.ordinal) players) [] []

/-- A tier respects the adaptive range: every member is within the adaptive
range of the first player of the tier. -/
def withinRange : List PlayerRating → Prop
  | [] => True
  | c :: cs => ∀ q ∈ c :: cs, c.ordinal - q.ordinal ≤ adaptiveRange c.ordinal

/-- Direct translation of getPlayerGroup: the first group containing the
player, if any. -/
def getPlayerGroup (playerName : Nat) (groups : List SkillGroup) : Option SkillGroup :=
  groups.find? fun group => group.players.any fun p => p.player == playerName

/-! ### Pairing cost function (matchmaking.ts lines 340-382) -/

/-- The cross-group penalty of matchmaking.ts lines 363-372, as a function of
the group gap; the subtraction is carried out over the rationals exactly as
the source computes it over numbers. -/
def tierPenalty (groupGap : Nat) : ℚ :=
  if groupGap = 1 then 0.15
  else if groupGap = 2 then 0.35
  else if groupGap = 3 then 0.6
  else 0.8 + ((groupGap : ℚ) - 4) * 0.2

/-- The tier-distance penalty table exactly as the specification words it:
no penalty at gap 0, then 0.15, 0.35, 0.60, and 0.8 + 0.2 * (gap - 4)
beyond. -/
def specTierPenalty (gap : Nat) : ℚ :=
  if gap = 0 then 0
  else if gap = 1 then 0.15
  else if gap = 2 then 0.35
  else if gap = 3 then 0.6
  else 0.8 + ((gap : ℚ) - 4) * 0.2

/-- Direct translation of the tier-aware pairing cost computed in the inner
greedy loop: one minus the draw probability, plus the cross-group penalty
when the two players sit in groups with different labels, plus 0.1 when the
unordered pair is in the history window. predictDraw is the external rating
model, passed as a function. -/
def pairCost (predictDraw : Rating → Rating → ℚ) (skillGroups : List SkillGroup)
    (matchHistory : MatchHistory) (playerEntry candidateEntry : PlayerRating) : ℚ :=
  let drawProbability := predictDraw playerEntry.rating candidateEntry.rating
  let cost := 1 - drawProbability
  let player1Group := getPlayerGroup playerEntry.player skillGroups
  let player2Group := getPlayerGroup candidateEntry.player skillGroups
  let cost :=
    match player1Group, player2Group with
    | some g1, some g2 =>
      if g1.name ≠ g2.name then
        let player1GroupIndex := skillGroups.findIdx fun g => g.name == g1.name
        let player2GroupIndex := skillGroups.findIdx fun g => g.name == g2.name
        let groupGap := ((player1GroupIndex : ℤ) - (player2GroupIndex : ℤ)).natAbs
        cost + tierPenalty groupGap
      else cost
    | _, _ => cost
  if hasRecentMatch playerEntry.player candidateEntry.player matchHistory then
    cost + 0.1
  else cost

/-- Direct translation of the tier-naive pairing cost of the variant engine:
one minus the draw probability, plus 0.2 when the unordered pair is in the
history window. -/
def pairCostNaive (predictDraw : Rating → Rating → ℚ) (matchHistory : MatchHistory)
    (playerEntry candidateEntry : PlayerRating) : ℚ :=
  let cost := 1 - predictDraw playerEntry.rating candidateEntry.rating
  if hasRecentMatch playerEntry.player candidateEntry.player matchHistory then
    cost + 0.2
  else cost

/-! ### Greedy pairing engine (matchmaking.ts lines 317-414) -/

/-- The conservative skill estimate used to seed the greedy pass. -/
def conservative (p : PlayerRating) : ℚ := p.rating.mu - 3 * p.rating.sigma

/-- The inner candidate scan: among the later not-yet-paired players, keep
the first candidate of strictly smallest cost (the source keeps the current
best unless the new cost is strictly smaller). -/
def selectBest (f : PlayerRating → ℚ) : List PlayerRating → Option PlayerRating
  | [] => none
  | c :: cs => some (cs.foldl (fun best cand => if f cand < f best then cand else best) c)

/-- Build the Match record for two chosen players, with the derived skill
difference, average skill and confidence (matchmaking.ts lines 395-405). -/
def mkMatch (player1 player2 : PlayerRating) : Match :=
  { player1 := player1.player
    player2 := player2.player
    skillDifference := |player1.ordinal - player2.ordinal|
    averageSkill := (player1.ordinal + player2.ordinal) / 2
    confidence := 1 / ((player1.rating.sigma + player2.rating.sigma) / 2) }

/-- The greedy pass: take the first unpaired player, pair it with the
minimum-cost later unpaired player, remove both, continue; a last player with
no candidates yields no match. The fuel argument (instantiated with the list
length, which strictly bounds the recursion depth) makes the recursion
structural so the kernel can evaluate it. -/
def greedyPairAux (cost : PlayerRating → PlayerRating → ℚ) :
    Nat → List PlayerRating → List Match
  | 0, _ => []
  | _, [] => []
  | fuel + 1, x :: rest =>
    match selectBest (cost x) rest with
    | none => []
    | some b => mkMatch x b :: greedyPairAux cost fuel (rest.erase b)

/-- The greedy pass at adequate fuel. -/
def greedyPair (cost : PlayerRating → PlayerRating → ℚ) (l : List PlayerRating) : List Match :=
  greedyPairAux cost l.length l

/-- The full pairing phase: sort by conservative estimate descending, run the
greedy pass, and sort the produced matches by average skill descending. -/
def greedyEngine (cost : PlayerRating → PlayerRating → ℚ) (playersToMatch : List PlayerRating) :
    List Match :=
  stableSort (keyDesc Match.averageSkill)
    (greedyPair cost (stableSort (keyDesc conservative) playersToMatch))

/-- All player identifiers mentioned by a list of matches, in order. -/
def matchPlayers : List Match → List Nat
  | [] => []
  | m :: ms => m.player1 :: m.player2 :: matchPlayers ms

/-! ### Odd-player carry-over policy (matchmaking.ts lines 274-304) -/

/-- Translation of the reduce that keeps the player of highest uncertainty,
keeping the earlier element on ties (the comparison is strict). -/
def reduceMaxSigma : List PlayerRating → Option PlayerRating
  | [] => none
  | p :: ps =>
    some (ps.foldl (fun prev current =>
      if current.rating.sigma > prev.rating.sigma then current else prev) p)

/-- The sit-out choice for an odd roster: prefer the highest-uncertainty
player among those not previously unmatched; only if every player was
previously unmatched, fall back to the highest-uncertainty player overall.
The boolean records the warning that the chosen player sits out twice
running (matchmaking.ts line 297). -/
def chooseSitOut (playersToMatch : List PlayerRating) (previouslyUnmatched : List Nat) :
    Option (PlayerRating × Bool) :=
  let nonPreviouslyUnmatched :=
    playersToMatch.filter fun p => !(previouslyUnmatched.contains p.player)
  match reduceMaxSigma nonPreviouslyUnmatched with
  | some p => some (p, previouslyUnmatched.contains p.player)
  | none =>
    (reduceMaxSigma playersToMatch).map fun p => (p, previouslyUnmatched.contains p.player)

/-- The sit-out decision of a round: only an odd roster removes a player. -/
def sitOutChoice (playersToMatch : List PlayerRating) (previouslyUnmatched : List Nat) :
    Option (PlayerRating × Bool) :=
  if playersToMatch.length % 2 = 1 then chooseSitOut playersToMatch previouslyUnmatched
  else none

/-- Splice the chosen sit-out player out of the roster: the source locates
the first entry with the chosen identifier by findIndex and removes it. -/
def removeChosen (playersToMatch : List PlayerRating) :
    Option (PlayerRating × Bool) → List PlayerRating
  | some (p, _) => playersToMatch.eraseP fun q => q.player == p.player
  | none => playersToMatch

/-- The unmatched-players list of the round result. -/
def unmatchedOf : Option (PlayerRating × Bool) → List Nat
  | some (p, _) => [p.player]
  | none => []

/-! ### The two round engines -/

/-- Last-wins lookup in the rating table, modelling the Map built by forEach
insertion keyed on the player field. -/
def lookupRating (resultsPlayers : List PlayerRating) (playerName : Nat) :
    Option PlayerRating :=
  resultsPlayers.reverse.find? fun p => p.player == playerName

/-- The roster-to-ratings step of the tier-aware engine: every active player
receives its stored rating, and a player without one receives the rating
prior of the external model with ordinal 0 (matchmaking.ts lines 232-249). -/
def buildActiveRatings (prior : Rating) (resultsPlayers : List PlayerRating)
    (activePlayers : List Nat) : List PlayerRating :=
  activePlayers.map fun playerName =>
    match lookupRating resultsPlayers playerName with
    | some p => p
    | none => { player := playerName, rating := prior, ordinal := 0 }

/-- The roster-to-ratings step of the tier-naive variant: keep exactly the
stored ratings whose identifier is on the active roster; an active player
without a stored rating is silently dropped. -/
def filterActiveRatings (resultsPlayers : List PlayerRating) (activePlayers : List Nat) :
    List PlayerRating :=
  resultsPlayers.filter fun p => activePlayers.contains p.player

/-- The prior rating of the external openskill model (rating() with default
arguments: mu 25, sigma 25 / 3); used to instantiate witnesses. -/
def defaultPriorRating : Rating := { mu := 25, sigma := 25 / 3 }

/-- The tier-aware round computation of matchmaking.ts (createMatchmaking),
with all ambient inputs explicit: the external draw predictor and rating
prior, the rating table, the active roster, the previously unmatched players
and the loaded match history. The early return for an empty pool is omitted
because the general path computes the identical record there. -/
def createMatchmaking (predictDraw : Rating → Rating → ℚ) (prior : Rating)
    (resultsPlayers : List PlayerRating) (activePlayers : List Nat)
    (previouslyUnmatched : List Nat) (matchHistory : MatchHistory) : MatchmakingResults :=
  let activePlayerRatings := buildActiveRatings prior resultsPlayers activePlayers
  let skillGroups := createSkillGroups activePlayerRatings
  let sitOut := sitOutChoice activePlayerRatings previouslyUnmatched
  { «matches» := greedyEngine (pairCost predictDraw skillGroups matchHistory)
      (removeChosen activePlayerRatings sitOut)
    totalActivePlayers := activePlayers.length
    unmatchedPlayers := unmatchedOf sitOut
    algorithm := "greedy-optimal" }

/-- The tier-naive round computation of the variant engine: filter the
rating table by the roster, apply the sit-out reduce without carry-over
bias, and run the same greedy engine on the naive cost. -/
def createMatchmakingNaive (predictDraw : Rating → Rating → ℚ)
    (resultsPlayers : List PlayerRating) (activePlayers : List Nat)
    (matchHistory : MatchHistory) : MatchmakingResults :=
  let activePlayerRatings := filterActiveRatings resultsPlayers activePlayers
  let sitOut :=
    if activePlayerRatings.length % 2 = 1 then
      (reduceMaxSigma activePlayerRatings).map fun p => (p, false)
    else none
  { «matches» := greedyEngine (pairCostNaive predictDraw matchHistory)
      (removeChosen activePlayerRatings sitOut)
    totalActivePlayers := activePlayers.length
    unmatchedPlayers := unmatchedOf sitOut
    algorithm := "greedy-optimal" }

/-! ## Lemmas about the stable sort -/

theorem insertSorted_perm (le : α → α → Bool) (a : α) (l : List α) :
    insertSorted le a l ~ a :: l := by
  induction l with
  | nil => exact List.Perm.refl _
  | cons b l ih =>
    simp only [insertSorted]
    by_cases h : le a b = true
    · rw [if_pos h]
    · rw [if_neg h]
      exact (ih.cons b).trans (List.Perm.swap a b l)

theorem stableSort_perm (le : α → α → Bool) (l : List α) : stableSort le l ~ l := by
  induction l with
  | nil => exact List.Perm.refl _
  | cons a l ih => exact (insertSorted_perm le a (stableSort le l)).trans (ih.cons a)

theorem pairwise_insertSorted (le : α → α → Bool)
    (htot : ∀ a b, le a b = true ∨ le b a = true)
    (htrans : ∀ a b c, le a b = true → le b c = true → le a c = true)
    (a : α) (l : List α) (h : l.Pairwise fun x y => le x y = true) :
    (insertSorted le a l).Pairwise fun x y => le x y = true := by
  induction l with
  | nil => simp [insertSorted]
  | cons b l ih =>
    rcases List.pairwise_cons.1 h with ⟨hb, hl⟩
    simp only [insertSorted]
    by_cases hab : le a b = true
    · rw [if_pos hab]
      refine List.pairwise_cons.2 ⟨?_, h⟩
      intro y hy
      rcases List.mem_cons.1 hy with rfl | hy
      · exact hab
      · exact htrans a b y hab (hb y hy)
    · rw [if_neg hab]
      refine List.pairwise_cons.2 ⟨?_, ih hl⟩
      intro y hy
      have hy2 : y ∈ a :: l := (insertSorted_perm le a l).mem_iff.1 hy
      rcases List.mem_cons.1 hy2 with rfl | hy2
      · rcases htot y b with h1 | h1
        · exact absurd h1 hab
        · exact h1
      · exact hb y hy2

theorem pairwise_stableSort (le : α → α → Bool)
    (htot : ∀ a b, le a b = true ∨ le b a = true)
    (htrans : ∀ a b c, le a b = true → le b c = true → le a c = true)
    (l : List α) : (stableSort le l).Pairwise fun x y => le x y = true := by
  induction l with
  | nil => simp [stableSort]
  | cons a l ih => exact pairwise_insertSorted le htot htrans a _ ih

theorem keyDesc_total (f : α → ℚ) (a b : α) :
    keyDesc f a b = true ∨ keyDesc f b a = true := by
  simp only [keyDesc, decide_eq_true_eq]
  exact le_total (f b) (f a)

theorem keyDesc_trans (f : α → ℚ) (a b c : α) :
    keyDesc f a b = true → keyDesc f b c = true → keyDesc f a c = true := by
  simp only [keyDesc, decide_eq_true_eq]
  exact fun h1 h2 => le_trans h2 h1

theorem stableSort_sorted_key (f : α → ℚ) (l : List α) :
    (stableSort (keyDesc f) l).Pairwise fun x y => f y ≤ f x := by
  have h := pairwise_stableSort (keyDesc f) (keyDesc_total f) (keyDesc_trans f) l
  exact h.imp fun hxy => by simpa [keyDesc, decide_eq_true_eq] using hxy

/-! ## Lemmas about matchPlayers -/

theorem matchPlayers_length (ms : List Match) :
    (matchPlayers ms).length = 2 * ms.length := by
  induction ms with
  | nil => rfl
  | cons m ms ih => simp [matchPlayers, ih]; omega

theorem matchPlayers_perm {ms₁ ms₂ : List Match} (h : ms₁ ~ ms₂) :
    matchPlayers ms₁ ~ matchPlayers ms₂ := by
  induction h with
  | nil => exact List.Perm.refl _
  | cons x _ ih => exact (ih.cons x.player2).cons x.player1
  | swap x y l =>
    show y.player1 :: y.player2 :: x.player1 :: x.player2 :: matchPlayers l
      ~ x.player1 :: x.player2 :: y.player1 :: y.player2 :: matchPlayers l
    have h := (@List.perm_append_comm _ [y.player1, y.player2]
      [x.player1, x.player2]).append_right (matchPlayers l)
    simpa using h
  | trans _ _ ih1 ih2 => exact ih1.trans ih2

theorem matchPlayers_nodup_ne {ms : List Match} (h : (matchPlayers ms).Nodup) :
    ∀ m ∈ ms, m.player1 ≠ m.player2 := by
  induction ms with
  | nil => simp
  | cons m ms ih =>
    intro m' hm'
    simp only [matchPlayers, List.nodup_cons] at h
    rcases List.mem_cons.1 hm' with rfl | hm'
    · intro e
      exact h.1 (by rw [e]; exact List.mem_cons_self _ _)
    · exact ih h.2.2 m' hm'

/-! ## Lemmas about the candidate scan -/

theorem foldlBest_spec (f : PlayerRating → ℚ) :
    ∀ (cs : List PlayerRating) (c : PlayerRating),
      (cs.foldl (fun best cand => if f cand < f best then cand else best) c) ∈ c :: cs ∧
      f (cs.foldl (fun best cand => if f cand < f best then cand else best) c) ≤ f c ∧
      ∀ y ∈ cs, f (cs.foldl (fun best cand => if f cand < f best then cand else best) c) ≤ f y := by
  intro cs
  induction cs with
  | nil => intro c; refine ⟨List.mem_cons_self _ _, le_refl _, by simp⟩
  | cons d cs ih =>
    intro c
    simp only [List.foldl_cons]
    by_cases h : f d < f c
    · rw [if_pos h]
      rcases ih d with ⟨hmem, hle, hall⟩
      refine ⟨?_, le_trans hle (le_of_lt h), ?_⟩
      · rcases List.mem_cons.1 hmem with heq | hmem
        · rw [heq]; exact List.mem_cons_of_mem _ (List.mem_cons_self _ _)
        · exact List.mem_cons_of_mem _ (List.mem_cons_of_mem _ hmem)
      · intro y hy
        rcases List.mem_cons.1 hy with rfl | hy
        · exact hle
        · exact hall y hy
    · rw [if_neg h]
      rcases ih c with ⟨hmem, hle, hall⟩
      refine ⟨?_, hle, ?_⟩
      · rcases List.mem_cons.1 hmem with heq | hmem
        · rw [heq]; exact List.mem_cons_self _ _
        · exact List.mem_cons_of_mem _ (List.mem_cons_of_mem _ hmem)
      · intro y hy
        rcases List.mem_cons.1 hy with rfl | hy
        · exact le_trans hle (le_of_not_lt h)
        · exact hall y hy

theorem selectBest_none_iff (f : PlayerRating → ℚ) (l : List PlayerRating) :
    selectBest f l = none ↔ l = [] := by
  cases l <;> simp [selectBest]

theorem selectBest_mem {f : PlayerRating → ℚ} {l : List PlayerRating} {b : PlayerRating}
    (h : selectBest f l = some b) : b ∈ l := by
  cases l with
  | nil => simp [selectBest] at h
  | cons c cs =>
    simp only [selectBest, Option.some.injEq] at h
    rw [← h]
    exact (foldlBest_spec f cs c).1

theorem selectBest_min {f : PlayerRating → ℚ} {l : List PlayerRating} {b : PlayerRating}
    (h : selectBest f l = some b) : ∀ y ∈ l, f b ≤ f y := by
  cases l with
  | nil => simp [selectBest] at h
  | cons c cs =>
    simp only [selectBest, Option.some.injEq] at h
    rw [← h]
    intro y hy
    rcases List.mem_cons.1 hy with rfl | hy
    · exact (foldlBest_spec f cs y).2.1
    · exact (foldlBest_spec f cs c).2.2 y hy

/-! ## Lemmas about the greedy pass -/

theorem greedyPairAux_perm (cost : PlayerRating → PlayerRating → ℚ) :
    ∀ (fuel : Nat) (l : List PlayerRating), l.length ≤ fuel → l.length % 2 = 0 →
      matchPlayers (greedyPairAux cost fuel l) ~ l.map PlayerRating.player := by
  intro fuel
  induction fuel with
  | zero =>
    intro l hl _
    have : l = [] := List.length_eq_zero.1 (Nat.le_zero.1 hl)
    subst this
    exact List.Perm.refl _
  | succ fuel ih =>
    intro l hl he
    match l with
    | [] => exact List.Perm.refl _
    | [x] => simp at he
    | x :: c :: cs =>
      have hsb : selectBest (cost x) (c :: cs) =
          some (cs.foldl (fun best cand => if cost x cand < cost x best then cand else best) c) :=
        rfl
      set b := cs.foldl (fun best cand => if cost x cand < cost x best then cand else best) c
        with hb
      have hbmem : b ∈ c :: cs := selectBest_mem hsb
      have hred : greedyPairAux cost (fuel + 1) (x :: c :: cs)
          = mkMatch x b :: greedyPairAux cost fuel ((c :: cs).erase b) := by
        simp [greedyPairAux, hsb]
      rw [hred]
      have herase : ((c :: cs).erase b).length = cs.length := by
        rw [List.length_erase_of_mem hbmem]
        simp
      have hlen2 : ((c :: cs).erase b).length ≤ fuel := by
        rw [herase]
        simp at hl
        omega
      have he2 : ((c :: cs).erase b).length % 2 = 0 := by
        rw [herase]
        simp at he
        omega
      have ihrec := ih ((c :: cs).erase b) hlen2 he2
      have hperm : List.Perm (b :: (c :: cs).erase b) (c :: cs) :=
        (List.perm_cons_erase hbmem).symm
      have hmap : List.Perm (b.player :: ((c :: cs).erase b).map PlayerRating.player)
          ((c :: cs).map PlayerRating.player) := by
        have := hperm.map PlayerRating.player
        simpa using this
      show List.Perm (x.player :: b.player :: matchPlayers (greedyPairAux cost fuel ((c :: cs).erase b)))
        (x.player :: (c :: cs).map PlayerRating.player)
      exact ((ihrec.cons b.player).trans hmap).cons x.player

theorem greedyPairAux_mem (cost : PlayerRating → PlayerRating → ℚ) :
    ∀ (fuel : Nat) (l : List PlayerRating), ∀ m ∈ greedyPairAux cost fuel l,
      ∃ a, a ∈ l ∧ ∃ b, b ∈ l ∧ m = mkMatch a b := by
  intro fuel
  induction fuel with
  | zero => intro l m hm; simp [greedyPairAux] at hm
  | succ fuel ih =>
    intro l m hm
    match l with
    | [] => simp [greedyPairAux] at hm
    | x :: rest =>
      cases hsb : selectBest (cost x) rest with
      | none => simp [greedyPairAux, hsb] at hm
      | some b =>
        have hred : greedyPairAux cost (fuel + 1) (x :: rest)
            = mkMatch x b :: greedyPairAux cost fuel (rest.erase b) := by
          simp [greedyPairAux, hsb]
        rw [hred] at hm
        rcases List.mem_cons.1 hm with rfl | hm
        · exact ⟨x, List.mem_cons_self _ _, b,
            List.mem_cons_of_mem _ (selectBest_mem hsb), rfl⟩
        · rcases ih (rest.erase b) m hm with ⟨a, ha, b', hb', hmk⟩
          exact ⟨a, List.mem_cons_of_mem _ ((List.erase_sublist b rest).subset ha),
            b', List.mem_cons_of_mem _ ((List.erase_sublist b rest).subset hb'), hmk⟩

theorem greedyEngine_perm (cost : PlayerRating → PlayerRating → ℚ) (l : List PlayerRating)
    (he : l.length % 2 = 0) :
    List.Perm (matchPlayers (greedyEngine cost l)) (l.map PlayerRating.player) := by
  have h1 : List.Perm (stableSort (keyDesc conservative) l) l := stableSort_perm _ _
  have hlen : (stableSort (keyDesc conservative) l).length = l.length := h1.length_eq
  have h2 := greedyPairAux_perm cost (stableSort (keyDesc conservative) l).length
    (stableSort (keyDesc conservative) l) le_rfl (by rw [hlen]; exact he)
  have h3 := matchPlayers_perm
    (stableSort_perm (keyDesc Match.averageSkill)
      (greedyPair cost (stableSort (keyDesc conservative) l)))
  exact h3.trans (h2.trans (h1.map PlayerRating.player))

theorem greedyEngine_mem (cost : PlayerRating → PlayerRating → ℚ) (l : List PlayerRating) :
    ∀ m ∈ greedyEngine cost l, ∃ a, a ∈ l ∧ ∃ b, b ∈ l ∧ m = mkMatch a b := by
  intro m hm
  have hm2 : m ∈ greedyPair cost (stableSort (keyDesc conservative) l) :=
    (stableSort_perm (keyDesc Match.averageSkill) _).mem_iff.1 hm
  rcases greedyPairAux_mem cost _ _ m hm2 with ⟨a, ha, b, hb, hmk⟩
  exact ⟨a, (stableSort_perm (keyDesc conservative) l).mem_iff.1 ha,
    b, (stableSort_perm (keyDesc conservative) l).mem_iff.1 hb, hmk⟩

/-! ## Lemmas about the sit-out policy -/

theorem lengthEraseP {p : α → Bool} {a : α} :
    ∀ {l : List α}, a ∈ l → p a = true → (l.eraseP p).length + 1 = l.length := by
  intro l
  induction l with
  | nil => intro ha; cases ha
  | cons b l ih =>
    intro ha hp
    by_cases hb : p b = true
    · simp [List.eraseP_cons, hb]
    · rcases List.mem_cons.1 ha with rfl | ha
      · exact absurd hp hb
      · simp [List.eraseP_cons, hb, ← ih ha hp]

theorem reduceMaxSigma_none_iff (l : List PlayerRating) :
    reduceMaxSigma l = none ↔ l = [] := by
  cases l <;> simp [reduceMaxSigma]

theorem foldlMaxSigma_spec :
    ∀ (cs : List PlayerRating) (c : PlayerRating),
      (cs.foldl (fun prev current =>
          if current.rating.sigma > prev.rating.sigma then current else prev) c) ∈ c :: cs ∧
      c.rating.sigma ≤ (cs.foldl (fun prev current =>
          if current.rating.sigma > prev.rating.sigma then current else prev) c).rating.sigma ∧
      (∀ y ∈ cs, y.rating.sigma ≤ (cs.foldl (fun prev current =>
          if current.rating.sigma > prev.rating.sigma then current else prev) c).rating.sigma) ∧
      ∃ l1 l2, c :: cs = l1 ++ (cs.foldl (fun prev current =>
          if current.rating.sigma > prev.rating.sigma then current else prev) c) :: l2 ∧
        ∀ y ∈ l1, y.rating.sigma < (cs.foldl (fun prev current =>
          if current.rating.sigma > prev.rating.sigma then current else prev) c).rating.sigma := by
  intro cs
  induction cs with
  | nil =>
    intro c
    exact ⟨List.mem_cons_self _ _, le_refl _, by simp, [], [], rfl, by simp⟩
  | cons d cs ih =>
    intro c
    simp only [List.foldl_cons]
    by_cases h : d.rating.sigma > c.rating.sigma
    · rw [if_pos h]
      rcases ih d with ⟨hmem, hle, hall, l1, l2, hsplit, hl1⟩
      refine ⟨?_, le_trans (le_of_lt h) hle, ?_, c :: l1, l2, ?_, ?_⟩
      · rcases List.mem_cons.1 hmem with heq | hmem
        · rw [heq]; exact List.mem_cons_of_mem _ (List.mem_cons_self _ _)
        · exact List.mem_cons_of_mem _ (List.mem_cons_of_mem _ hmem)
      · intro y hy
        rcases List.mem_cons.1 hy with rfl | hy
        · exact hle
        · exact hall y hy
      · rw [List.cons_append, ← hsplit]
      · intro y hy
        rcases List.mem_cons.1 hy with rfl | hy
        · exact lt_of_lt_of_le h hle
        · exact hl1 y hy
    · rw [if_neg h]
      rcases ih c with ⟨hmem, hle, hall, l1, l2, hsplit, hl1⟩
      have hdle : d.rating.sigma ≤ c.rating.sigma := le_of_not_lt h
      refine ⟨?_, hle, ?_, ?_⟩
      · rcases List.mem_cons.1 hmem with heq | hmem
        · rw [heq]; exact List.mem_cons_self _ _
        · exact List.mem_cons_of_mem _ (List.mem_cons_of_mem _ hmem)
      · intro y hy
        rcases List.mem_cons.1 hy with rfl | hy
        · exact le_trans hdle hle
        · exact hall y hy
      · cases l1 with
        | nil =>
          simp only [List.nil_append, List.cons.injEq] at hsplit
          refine ⟨[], d :: cs, ?_, by simp⟩
          simp [← hsplit.1]
        | cons e t =>
          simp only [List.cons_append, List.cons.injEq] at hsplit
          rcases hsplit with ⟨rfl, hcs⟩
          have hcmem : c ∈ c :: t := List.mem_cons_self _ _
          have hclt := hl1 c hcmem
          refine ⟨c :: d :: t, l2, ?_, ?_⟩
          · rw [List.cons_append, List.cons_append, ← hcs]
          · intro y hy
            rcases List.mem_cons.1 hy with rfl | hy
            · exact hclt
            · rcases List.mem_cons.1 hy with rfl | hy
              · exact lt_of_le_of_lt hdle hclt
              · exact hl1 y (List.mem_cons_of_mem _ hy)

theorem reduceMaxSigma_mem {l : List PlayerRating} {p : PlayerRating}
    (h : reduceMaxSigma l = some p) : p ∈ l := by
  cases l with
  | nil => simp [reduceMaxSigma] at h
  | cons c cs =>
    simp only [reduceMaxSigma, Option.some.injEq] at h
    rw [← h]
    exact (foldlMaxSigma_spec cs c).1

theorem reduceMaxSigma_max {l : List PlayerRating} {p : PlayerRating}
    (h : reduceMaxSigma l = some p) : ∀ y ∈ l, y.rating.sigma ≤ p.rating.sigma := by
  cases l with
  | nil => simp [reduceMaxSigma] at h
  | cons c cs =>
    simp only [reduceMaxSigma, Option.some.injEq] at h
    rw [← h]
    intro y hy
    rcases List.mem_cons.1 hy with rfl | hy
    · exact (foldlMaxSigma_spec cs y).2.1
    · exact (foldlMaxSigma_spec cs c).2.2.1 y hy

theorem reduceMaxSigma_first {l : List PlayerRating} {p : PlayerRating}
    (h : reduceMaxSigma l = some p) :
    ∃ l1 l2, l = l1 ++ p :: l2 ∧ ∀ y ∈ l1, y.rating.sigma < p.rating.sigma := by
  cases l with
  | nil => simp [reduceMaxSigma] at h
  | cons c cs =>
    simp only [reduceMaxSigma, Option.some.injEq] at h
    rw [← h]
    exact (foldlMaxSigma_spec cs c).2.2.2

theorem chooseSitOut_mem {players : List PlayerRating} {prev : List Nat}
    {p : PlayerRating} {w : Bool} (h : chooseSitOut players prev = some (p, w)) :
    p ∈ players := by
  rcases hr : reduceMaxSigma (players.filter fun q => !(prev.contains q.player)) with _ | q
  · simp only [chooseSitOut, hr, Option.map_eq_some'] at h
    rcases h with ⟨q, hq, hqe⟩
    have hqp : q = p := congrArg Prod.fst hqe
    rw [← hqp]
    exact reduceMaxSigma_mem hq
  · simp only [chooseSitOut, hr, Option.some.injEq, Prod.mk.injEq] at h
    rw [← h.1]
    exact List.mem_of_mem_filter (reduceMaxSigma_mem hr)

theorem chooseSitOut_isSome {players : List PlayerRating} {prev : List Nat}
    (hne : players ≠ []) : ∃ p w, chooseSitOut players prev = some (p, w) := by
  rcases hr : reduceMaxSigma (players.filter fun q => !(prev.contains q.player)) with _ | q
  · rcases hq : reduceMaxSigma players with _ | q
    · exact absurd ((reduceMaxSigma_none_iff players).1 hq) hne
    · refine ⟨q, prev.contains q.player, ?_⟩
      simp only [chooseSitOut, hr, hq, Option.map_some']
  · refine ⟨q, prev.contains q.player, ?_⟩
    simp only [chooseSitOut, hr]

/-! ## Round-level invariants, shared by the two engines -/

theorem roundInvariantsGen (cost : PlayerRating → PlayerRating → ℚ)
    (players : List PlayerRating) (sitOut : Option (PlayerRating × Bool))
    (hnodup : (players.map PlayerRating.player).Nodup)
    (hnone : sitOut = none → players.length % 2 = 0)
    (hsome : ∀ p w, sitOut = some (p, w) → players.length % 2 = 1 ∧ p ∈ players) :
    (matchPlayers (greedyEngine cost (removeChosen players sitOut))).Nodup ∧
    (∀ m ∈ greedyEngine cost (removeChosen players sitOut), m.player1 ≠ m.player2) ∧
    (unmatchedOf sitOut).length ≤ 1 ∧
    2 * (greedyEngine cost (removeChosen players sitOut)).length +
        (unmatchedOf sitOut).length = players.length := by
  cases sitOut with
  | none =>
    have heven := hnone rfl
    have hperm := greedyEngine_perm cost players heven
    have hnd : (matchPlayers (greedyEngine cost players)).Nodup :=
      hperm.nodup_iff.2 hnodup
    refine ⟨hnd, matchPlayers_nodup_ne hnd, by simp [unmatchedOf], ?_⟩
    have hlen := hperm.length_eq
    rw [matchPlayers_length, List.length_map] at hlen
    simpa [removeChosen, unmatchedOf] using hlen
  | some pw =>
    rcases pw with ⟨p, w⟩
    rcases hsome p w rfl with ⟨hodd, hp⟩
    have hppred : (p.player == p.player) = true := by simp
    have hlenE : (players.eraseP fun q => q.player == p.player).length + 1
        = players.length := lengthEraseP hp hppred
    have hsub : (players.eraseP fun q => q.player == p.player) <+ players :=
      List.eraseP_sublist players
    have hnd2 : ((players.eraseP fun q => q.player == p.player).map
        PlayerRating.player).Nodup :=
      (hsub.map PlayerRating.player).nodup hnodup
    have heven2 : (players.eraseP fun q => q.player == p.player).length % 2 = 0 := by
      omega
    have hperm := greedyEngine_perm cost _ heven2
    have hnd : (matchPlayers (greedyEngine cost
        (players.eraseP fun q => q.player == p.player))).Nodup :=
      hperm.nodup_iff.2 hnd2
    refine ⟨hnd, matchPlayers_nodup_ne hnd, by simp [unmatchedOf], ?_⟩
    have hlen := hperm.length_eq
    rw [matchPlayers_length, List.length_map] at hlen
    simp only [removeChosen, unmatchedOf, List.length_cons, List.length_nil]
    omega

/-! ## Roster construction lemmas -/

theorem lookupRating_player {results : List PlayerRating} {name : Nat} {p : PlayerRating}
    (h : lookupRating results name = some p) : p.player = name := by
  unfold lookupRating at h
  have := List.find?_some h
  simpa using this

theorem buildActiveRatings_names (prior : Rating) (results : List PlayerRating)
    (roster : List Nat) :
    (buildActiveRatings prior results roster).map PlayerRating.player = roster := by
  induction roster with
  | nil => rfl
  | cons r roster ih =>
    simp only [buildActiveRatings, List.map_cons] at ih ⊢
    cases hl : lookupRating results r with
    | none => simp [ih]
    | some p => simp [ih, lookupRating_player hl]

theorem buildActiveRatings_length (prior : Rating) (results : List PlayerRating)
    (roster : List Nat) :
    (buildActiveRatings prior results roster).length = roster.length := by
  have := congrArg List.length (buildActiveRatings_names prior results roster)
  simpa using this

theorem filterActiveRatings_names_nodup {results : List PlayerRating}
    (roster : List Nat) (h : (results.map PlayerRating.player).Nodup) :
    ((filterActiveRatings results roster).map PlayerRating.player).Nodup := by
  have hsub : filterActiveRatings results roster <+ results := List.filter_sublist results
  exact (hsub.map PlayerRating.player).nodup h

/-- The sit-out decision of the tier-aware engine satisfies the two side
conditions of roundInvariantsGen. -/
theorem sitOutChoice_none {players : List PlayerRating} {prev : List Nat}
    (h : sitOutChoice players prev = none) : players.length % 2 = 0 := by
  by_cases hodd : players.length % 2 = 1
  · exfalso
    have hne : players ≠ [] := by
      intro e
      rw [e] at hodd
      simp at hodd
    rcases @chooseSitOut_isSome players prev hne with ⟨p, w, hpw⟩
    rw [sitOutChoice, if_pos hodd, hpw] at h
    exact Option.noConfusion h
  · omega

theorem sitOutChoice_some {players : List PlayerRating} {prev : List Nat}
    {p : PlayerRating} {w : Bool} (h : sitOutChoice players prev = some (p, w)) :
    players.length % 2 = 1 ∧ p ∈ players := by
  by_cases hodd : players.length % 2 = 1
  · rw [sitOutChoice, if_pos hodd] at h
    exact ⟨hodd, chooseSitOut_mem h⟩
  · rw [sitOutChoice, if_neg hodd] at h
    exact Option.noConfusion h

/-! ## Claim C1 -/

/-- Claim C1 counterexample: the tier-naive variant of createMatchmaking
violates the completeness equation of the claim. With active roster [7] and
an empty rating table, the roster identifier 7 has no stored rating and is
silently dropped, so the round produces no match and no unmatched player
while totalActivePlayers is 1: two times the match count plus the unmatched
count differs from the active roster size. -/
theorem C1_counterexample :
    ¬(2 * (createMatchmakingNaive (fun _ _ => (1 : ℚ) / 2) [] [7]
          { «matches» := [], lookbackRounds := 3 }).«matches».length +
        (createMatchmakingNaive (fun _ _ => (1 : ℚ) / 2) [] [7]
          { «matches» := [], lookbackRounds := 3 }).unmatchedPlayers.length =
        (createMatchmakingNaive (fun _ _ => (1 : ℚ) / 2) [] [7]
          { «matches» := [], lookbackRounds := 3 }).totalActivePlayers) := by
  decide

/-- Claim C1 (amended): for the tier-aware createMatchmaking, whenever the
active roster has distinct identifiers, each player identifier appears in at
most one match of the round result, the two players of every match differ,
at most one player is unmatched, and two times the match count plus the
unmatched count equals totalActivePlayers (the active roster size). For the
tier-naive variant the same invariants hold with the roster size replaced by
the number of roster identifiers that resolve to a rating entry (unresolved
identifiers are silently dropped), provided the rating table has distinct
identifiers. -/
theorem C1_round_invariants
    (pd : Rating → Rating → ℚ) (prior : Rating) (results : List PlayerRating)
    (roster prev : List Nat) (hist : MatchHistory)
    (pd2 : Rating → Rating → ℚ) (results2 : List PlayerRating) (roster2 : List Nat)
    (hist2 : MatchHistory)
    (h1 : roster.Nodup) (h2 : (results2.map PlayerRating.player).Nodup) :
    ((matchPlayers (createMatchmaking pd prior results roster prev hist).«matches»).Nodup ∧
      (∀ m ∈ (createMatchmaking pd prior results roster prev hist).«matches»,
        m.player1 ≠ m.player2) ∧
      (createMatchmaking pd prior results roster prev hist).unmatchedPlayers.length ≤ 1 ∧
      2 * (createMatchmaking pd prior results roster prev hist).«matches».length +
          (createMatchmaking pd prior results roster prev hist).unmatchedPlayers.length =
        (createMatchmaking pd prior results roster prev hist).totalActivePlayers) ∧
    ((matchPlayers (createMatchmakingNaive pd2 results2 roster2 hist2).«matches»).Nodup ∧
      (∀ m ∈ (createMatchmakingNaive pd2 results2 roster2 hist2).«matches»,
        m.player1 ≠ m.player2) ∧
      (createMatchmakingNaive pd2 results2 roster2 hist2).unmatchedPlayers.length ≤ 1 ∧
      2 * (createMatchmakingNaive pd2 results2 roster2 hist2).«matches».length +
          (createMatchmakingNaive pd2 results2 roster2 hist2).unmatchedPlayers.length =
        (filterActiveRatings results2 roster2).length) := by
  constructor
  · have hnodup :
        ((buildActiveRatings prior results roster).map PlayerRating.player).Nodup := by
      rw [buildActiveRatings_names]
      exact h1
    have h := roundInvariantsGen
      (pairCost pd (createSkillGroups (buildActiveRatings prior results roster)) hist)
      (buildActiveRatings prior results roster)
      (sitOutChoice (buildActiveRatings prior results roster) prev)
      hnodup (fun he => sitOutChoice_none he)
      (fun p w hw => sitOutChoice_some hw)
    refine ⟨h.1, h.2.1, h.2.2.1, ?_⟩
    have heq := h.2.2.2
    rw [buildActiveRatings_length] at heq
    exact heq
  · have hnodup := filterActiveRatings_names_nodup roster2 h2
    have hnone : (if (filterActiveRatings results2 roster2).length % 2 = 1 then
          (reduceMaxSigma (filterActiveRatings results2 roster2)).map fun p => (p, false)
        else none) = none → (filterActiveRatings results2 roster2).length % 2 = 0 := by
      intro he
      by_cases hodd : (filterActiveRatings results2 roster2).length % 2 = 1
      · exfalso
        rw [if_pos hodd] at he
        have hne : filterActiveRatings results2 roster2 ≠ [] := by
          intro e
          rw [e] at hodd
          simp at hodd
        cases hq : reduceMaxSigma (filterActiveRatings results2 roster2) with
        | none => exact hne ((reduceMaxSigma_none_iff _).1 hq)
        | some q => rw [hq] at he; exact Option.noConfusion he
      · omega
    have hsome : ∀ p w, (if (filterActiveRatings results2 roster2).length % 2 = 1 then
          (reduceMaxSigma (filterActiveRatings results2 roster2)).map fun p => (p, false)
        else none) = some (p, w) →
        (filterActiveRatings results2 roster2).length % 2 = 1 ∧
          p ∈ filterActiveRatings results2 roster2 := by
      intro p w hw
      by_cases hodd : (filterActiveRatings results2 roster2).length % 2 = 1
      · rw [if_pos hodd] at hw
        refine ⟨hodd, ?_⟩
        rcases Option.map_eq_some'.1 hw with ⟨q, hq, hqe⟩
        have hqp : q = p := congrArg Prod.fst hqe
        rw [← hqp]
        exact reduceMaxSigma_mem hq
      · rw [if_neg hodd] at hw
        exact Option.noConfusion hw
    have h := roundInvariantsGen (pairCostNaive pd2 hist2)
      (filterActiveRatings results2 roster2) _ hnodup hnone hsome
    exact ⟨h.1, h.2.1, h.2.2.1, h.2.2.2⟩

/-- Claim C1 witness: the amended invariants at a concrete even two-player
roster for the tier-aware engine and a concrete roster for the naive
variant. -/
theorem C1_witness :
    2 * (createMatchmaking (fun _ _ => (1 : ℚ) / 2) defaultPriorRating []
          [1, 2] [] { «matches» := [], lookbackRounds := 3 }).«matches».length +
        (createMatchmaking (fun _ _ => (1 : ℚ) / 2) defaultPriorRating []
          [1, 2] [] { «matches» := [], lookbackRounds := 3 }).unmatchedPlayers.length =
      (createMatchmaking (fun _ _ => (1 : ℚ) / 2) defaultPriorRating []
          [1, 2] [] { «matches» := [], lookbackRounds := 3 }).totalActivePlayers :=
  (C1_round_invariants (fun _ _ => (1 : ℚ) / 2) defaultPriorRating [] [1, 2] []
    { «matches» := [], lookbackRounds := 3 } (fun _ _ => (1 : ℚ) / 2) [] []
    { «matches» := [], lookbackRounds := 3 } (by decide) (by decide)).1.2.2.2

/-! ## Claim C2 -/

/-- Claim C2: on an even, non-empty players-to-pair list the greedy engine
pairs every player (two times the match count equals the list length), every
emitted match is built from two players of the list with skillDifference the
absolute ordinal difference, averageSkill the ordinal mean, and confidence
the reciprocal of the mean uncertainty, the final match list is sorted by
descending averageSkill, and the candidate scan always selects a later
not-yet-paired player of minimum cost. The seeding order (descending by
mean minus three times uncertainty) and the absence of backtracking are the
definitions of greedyEngine and greedyPairAux embedded from the source. -/
theorem C2_greedy_engine (cost : PlayerRating → PlayerRating → ℚ) (l : List PlayerRating)
    (_hne : l ≠ []) (heven : l.length % 2 = 0) :
    2 * (greedyEngine cost l).length = l.length ∧
    (∀ m ∈ greedyEngine cost l, ∃ a, a ∈ l ∧ ∃ b, b ∈ l ∧
        m.player1 = a.player ∧ m.player2 = b.player ∧
        m.skillDifference = |a.ordinal - b.ordinal| ∧
        m.averageSkill = (a.ordinal + b.ordinal) / 2 ∧
        m.confidence = 1 / ((a.rating.sigma + b.rating.sigma) / 2)) ∧
    (greedyEngine cost l).Pairwise (fun m1 m2 => m2.averageSkill ≤ m1.averageSkill) ∧
    (∀ x b c cs, selectBest (cost x) (c :: cs) = some b →
        b ∈ c :: cs ∧ ∀ y ∈ c :: cs, cost x b ≤ cost x y) := by
  refine ⟨?_, ?_, ?_, ?_⟩
  · have hperm := greedyEngine_perm cost l heven
    have hlen := hperm.length_eq
    rw [matchPlayers_length, List.length_map] at hlen
    exact hlen
  · intro m hm
    rcases greedyEngine_mem cost l m hm with ⟨a, ha, b, hb, rfl⟩
    exact ⟨a, ha, b, hb, rfl, rfl, rfl, rfl, rfl⟩
  · exact stableSort_sorted_key Match.averageSkill _
  · intro x b c cs hsb
    exact ⟨selectBest_mem hsb, selectBest_min hsb⟩

/-- Claim C2 witness: the pairing completeness conjunct at a concrete
two-player list with a constant cost function. -/
theorem C2_witness :
    2 * (greedyEngine (fun _ _ => (0 : ℚ))
        [{ player := 1, rating := { mu := 20, sigma := 1 }, ordinal := 20 },
         { player := 2, rating := { mu := 18, sigma := 1 }, ordinal := 18 }]).length =
      ([{ player := 1, rating := { mu := 20, sigma := 1 }, ordinal := 20 },
        { player := 2, rating := { mu := 18, sigma := 1 }, ordinal := 18 }] :
        List PlayerRating).length :=
  (C2_greedy_engine (fun _ _ => (0 : ℚ))
    [{ player := 1, rating := { mu := 20, sigma := 1 }, ordinal := 20 },
     { player := 2, rating := { mu := 18, sigma := 1 }, ordinal := 18 }]
    (by decide) (by decide)).1

/-! ## Claim C3 -/

theorem tierPenalty_eq_spec (g : Nat) : tierPenalty g = specTierPenalty g := by
  rcases g with _ | _ | _ | _ | g
  · norm_num [tierPenalty, specTierPenalty]
  · norm_num [tierPenalty, specTierPenalty]
  · norm_num [tierPenalty, specTierPenalty]
  · norm_num [tierPenalty, specTierPenalty]
  · have h0 : g + 4 ≠ 0 := by omega
    have h1 : g + 4 ≠ 1 := by omega
    have h2 : g + 4 ≠ 2 := by omega
    have h3 : g + 4 ≠ 3 := by omega
    simp [tierPenalty, specTierPenalty, h0, h1, h2, h3]

theorem specTierPenalty_nonneg (g : Nat) : 0 ≤ specTierPenalty g := by
  rcases g with _ | _ | _ | _ | g
  · norm_num [specTierPenalty]
  · norm_num [specTierPenalty]
  · norm_num [specTierPenalty]
  · norm_num [specTierPenalty]
  · have h0 : g + 4 ≠ 0 := by omega
    have h1 : g + 4 ≠ 1 := by omega
    have h2 : g + 4 ≠ 2 := by omega
    have h3 : g + 4 ≠ 3 := by omega
    simp only [specTierPenalty, h0, h1, h2, h3, if_false]
    have hg : (0 : ℚ) ≤ (g : ℚ) := by positivity
    push_cast
    nlinarith

theorem findIdx_name_of_getElem :
    ∀ {groups : List SkillGroup} {i : Nat} {G : SkillGroup},
      (groups.map SkillGroup.name).Nodup → groups[i]? = some G →
      (groups.findIdx fun g => g.name == G.name) = i := by
  intro groups
  induction groups with
  | nil => intro i G _ hi; simp at hi
  | cons g gs ih =>
    intro i G hnd hi
    simp only [List.map_cons, List.nodup_cons] at hnd
    rcases hnd with ⟨hg, hgs⟩
    cases i with
    | zero =>
      simp only [List.getElem?_cons_zero, Option.some.injEq] at hi
      subst hi
      simp [List.findIdx_cons]
    | succ i =>
      simp only [List.getElem?_cons_succ] at hi
      have hGmem : G ∈ gs := List.getElem?_mem hi
      have hne : (g.name == G.name) = false := by
        rw [beq_eq_false_iff_ne]
        intro e
        exact hg (e ▸ List.mem_map_of_mem SkillGroup.name hGmem)
      simp [List.findIdx_cons, hne, ih hgs hi]

/-- Claim C3: with a tier sequence of distinct labels containing both
players (player a located in tier GA at index iA, player b in GB at iB),
the tier-aware pairing cost equals one minus the draw probability, plus
the tier-distance penalty table of the specification applied to the index
gap, plus 0.1 exactly when the unordered pair is in the history window;
the cost is non-negative when the draw probability lies in [0, 1]. The
tier-naive variant charges the same base cost plus 0.2 exactly when the
pair is recent, and is likewise non-negative. -/
theorem C3_pair_cost (pd : Rating → Rating → ℚ) (groups : List SkillGroup)
    (history : MatchHistory) (a b : PlayerRating) (iA iB : Nat) (GA GB : SkillGroup)
    (hnd : (groups.map SkillGroup.name).Nodup)
    (hA : getPlayerGroup a.player groups = some GA)
    (hB : getPlayerGroup b.player groups = some GB)
    (hiA : groups[iA]? = some GA) (hiB : groups[iB]? = some GB) :
    pairCost pd groups history a b
      = (1 - pd a.rating b.rating) + specTierPenalty ((iA : ℤ) - (iB : ℤ)).natAbs
        + (if hasRecentMatch a.player b.player history then (0.1 : ℚ) else 0) ∧
    (0 ≤ pd a.rating b.rating → pd a.rating b.rating ≤ 1 →
      0 ≤ pairCost pd groups history a b) ∧
    pairCostNaive pd history a b
      = (1 - pd a.rating b.rating)
        + (if hasRecentMatch a.player b.player history then (0.2 : ℚ) else 0) ∧
    (0 ≤ pd a.rating b.rating → pd a.rating b.rating ≤ 1 →
      0 ≤ pairCostNaive pd history a b) := by
  have hIdxA := findIdx_name_of_getElem hnd hiA
  have hIdxB := findIdx_name_of_getElem hnd hiB
  have heq : pairCost pd groups history a b
      = (1 - pd a.rating b.rating) + specTierPenalty ((iA : ℤ) - (iB : ℤ)).natAbs
        + (if hasRecentMatch a.player b.player history then (0.1 : ℚ) else 0) := by
    by_cases hname : GA.name = GB.name
    · have hii : iA = iB := by rw [← hIdxA, ← hIdxB, hname]
      subst hii
      simp only [pairCost, hA, hB, if_neg (not_not_intro hname), Int.sub_self,
        Int.natAbs_zero]
      have hz : specTierPenalty 0 = 0 := by norm_num [specTierPenalty]
      rw [hz]
      split_ifs <;> ring
    · simp only [pairCost, hA, hB, if_pos hname, hIdxA, hIdxB, tierPenalty_eq_spec]
      split_ifs <;> ring
  have heqn : pairCostNaive pd history a b
      = (1 - pd a.rating b.rating)
        + (if hasRecentMatch a.player b.player history then (0.2 : ℚ) else 0) := by
    simp only [pairCostNaive]
    split_ifs <;> ring
  refine ⟨heq, ?_, heqn, ?_⟩
  · intro h0 h1
    rw [heq]
    have hsp := specTierPenalty_nonneg ((iA : ℤ) - (iB : ℤ)).natAbs
    split_ifs <;> linarith
  · intro h0 h1
    rw [heqn]
    split_ifs <;> linarith

/-- Claim C3 witness: the cost equation at two concrete players in adjacent
concrete tiers with an empty history and a constant draw probability. -/
theorem C3_witness :
    pairCost (fun _ _ => (1 : ℚ) / 2)
        [{ name := 0, players := [{ player := 1, rating := { mu := 10, sigma := 1 }, ordinal := 10 }],
           minOrdinal := 10, maxOrdinal := 10 },
         { name := 1, players := [{ player := 2, rating := { mu := 8, sigma := 1 }, ordinal := 8 }],
           minOrdinal := 8, maxOrdinal := 8 }]
        { «matches» := [], lookbackRounds := 3 }
        { player := 1, rating := { mu := 10, sigma := 1 }, ordinal := 10 }
        { player := 2, rating := { mu := 8, sigma := 1 }, ordinal := 8 }
      = (1 - (1 : ℚ) / 2) + specTierPenalty (((0 : Nat) : ℤ) - ((1 : Nat) : ℤ)).natAbs
        + (if hasRecentMatch 1 2 { «matches» := [], lookbackRounds := 3 } then (0.1 : ℚ) else 0) :=
  (C3_pair_cost (fun _ _ => (1 : ℚ) / 2)
    [{ name := 0, players := [{ player := 1, rating := { mu := 10, sigma := 1 }, ordinal := 10 }],
       minOrdinal := 10, maxOrdinal := 10 },
     { name := 1, players := [{ player := 2, rating := { mu := 8, sigma := 1 }, ordinal := 8 }],
       minOrdinal := 8, maxOrdinal := 8 }]
    { «matches» := [], lookbackRounds := 3 }
    { player := 1, rating := { mu := 10, sigma := 1 }, ordinal := 10 }
    { player := 2, rating := { mu := 8, sigma := 1 }, ordinal := 8 }
    0 1
    { name := 0, players := [{ player := 1, rating := { mu := 10, sigma := 1 }, ordinal := 10 }],
      minOrdinal := 10, maxOrdinal := 10 }
    { name := 1, players := [{ player := 2, rating := { mu := 8, sigma := 1 }, ordinal := 8 }],
      minOrdinal := 8, maxOrdinal := 8 }
    (by decide) (by decide) (by decide) (by decide) (by decide)).1

/-! ## Claim C4 -/

theorem groupsLoop_flatten :
    ∀ (rem current : List PlayerRating) (groups : List SkillGroup),
      ((groupsLoop rem current groups).map SkillGroup.players).flatten
        = (groups.map SkillGroup.players).flatten ++ current ++ rem := by
  intro rem
  induction rem with
  | nil =>
    intro current groups
    cases current with
    | nil => simp [groupsLoop]
    | cons c cs => simp [groupsLoop, createGroup]
  | cons p rest ih =>
    intro current groups
    cases current with
    | nil =>
      rw [show groupsLoop (p :: rest) [] groups = groupsLoop rest [p] groups from rfl, ih]
      simp
    | cons c cs =>
      simp only [groupsLoop]
      split
      · rw [ih]
        simp [createGroup]
      · rw [ih]
        simp

theorem groupsLoop_sizes :
    ∀ (rem current : List PlayerRating) (groups : List SkillGroup),
      current.length ≤ 6 →
      (∀ g ∈ groups, g.players ≠ [] ∧ g.players.length ≤ 6) →
      ∀ g ∈ groupsLoop rem current groups, g.players ≠ [] ∧ g.players.length ≤ 6 := by
  intro rem
  induction rem with
  | nil =>
    intro current groups hc hg g hmem
    cases current with
    | nil => exact hg g hmem
    | cons c cs =>
      simp only [groupsLoop] at hmem
      rcases List.mem_append.1 hmem with hmem | hmem
      · exact hg g hmem
      · simp only [List.mem_singleton] at hmem
        subst hmem
        exact ⟨by simp [createGroup], by simpa [createGroup] using hc⟩
  | cons p rest ih =>
    intro current groups hc hg g hmem
    cases current with
    | nil => exact ih [p] groups (by simp) hg g hmem
    | cons c cs =>
      simp only [groupsLoop] at hmem
      split at hmem
      · refine ih [p] _ (by simp) ?_ g hmem
        intro g' hg'
        rcases List.mem_append.1 hg' with h' | h'
        · exact hg g' h'
        · simp only [List.mem_singleton] at h'
          subst h'
          exact ⟨by simp [createGroup], by simpa [createGroup] using hc⟩
      · next h =>
        have h6 : ¬ 6 ≤ (c :: cs).length := fun hh => h (Or.inr hh)
        simp only [List.length_cons] at h6
        refine ih (c :: cs ++ [p]) groups ?_ hg g hmem
        have hlen : (c :: cs ++ [p]).length = cs.length + 2 := by simp
        omega

/-- Claim C4: the tier builder output concatenates, tier by tier, to exactly
the descending ordinal-sorted input; hence the tiers partition the input (the
concatenation is a permutation of the input), the tiers are contiguous
descending bands that are internally ordinal-sorted, every tier is nonempty
with at most 6 players, and the empty input yields the empty tier list. -/
theorem C4_tier_partition (ps : List PlayerRating) :
    ((createSkillGroups ps).map SkillGroup.players).flatten
        = stableSort (keyDesc PlayerRating.ordinal) ps ∧
    List.Perm ((createSkillGroups ps).map SkillGroup.players).flatten ps ∧
    ((createSkillGroups ps).map SkillGroup.players).flatten.Pairwise
        (fun a b => b.ordinal ≤ a.ordinal) ∧
    (∀ g ∈ createSkillGroups ps, g.players ≠ [] ∧ g.players.length ≤ 6) ∧
    createSkillGroups ([] : List PlayerRating) = [] := by
  have hflat : ((createSkillGroups ps).map SkillGroup.players).flatten
      = stableSort (keyDesc PlayerRating.ordinal) ps := by
    unfold createSkillGroups
    rw [groupsLoop_flatten]
    simp
  refine ⟨hflat, ?_, ?_, ?_, rfl⟩
  · rw [hflat]
    exact stableSort_perm _ _
  · rw [hflat]
    exact stableSort_sorted_key _ _
  · exact groupsLoop_sizes _ [] [] (by simp) (by simp)

/-- Claim C4 witness: the partition equation at a concrete one-player
input. -/
theorem C4_witness :
    (((createSkillGroups
        [{ player := 1, rating := { mu := 10, sigma := 1 }, ordinal := 10 }]).map
          SkillGroup.players).flatten
      = stableSort (keyDesc PlayerRating.ordinal)
          [{ player := 1, rating := { mu := 10, sigma := 1 }, ordinal := 10 }]) :=
  (C4_tier_partition
    [{ player := 1, rating := { mu := 10, sigma := 1 }, ordinal := 10 }]).1

/-! ## Claim C5 -/

theorem adaptiveRange_pos (x : ℚ) : 0 < adaptiveRange x := by
  unfold adaptiveRange
  split_ifs <;> norm_num

theorem groupsLoop_range :
    ∀ (rem current : List PlayerRating) (groups : List SkillGroup),
      withinRange current →
      (∀ g ∈ groups, withinRange g.players) →
      ∀ g ∈ groupsLoop rem current groups, withinRange g.players := by
  intro rem
  induction rem with
  | nil =>
    intro current groups hc hg g hmem
    cases current with
    | nil => exact hg g hmem
    | cons c cs =>
      simp only [groupsLoop] at hmem
      rcases List.mem_append.1 hmem with hmem | hmem
      · exact hg g hmem
      · simp only [List.mem_singleton] at hmem
        subst hmem
        exact hc
  | cons p rest ih =>
    intro current groups hc hg g hmem
    cases current with
    | nil =>
      refine ih [p] groups ?_ hg g hmem
      intro q hq
      simp only [List.mem_singleton] at hq
      subst hq
      simpa using le_of_lt (adaptiveRange_pos q.ordinal)
    | cons c cs =>
      simp only [groupsLoop] at hmem
      split at hmem
      · refine ih [p] _ ?_ ?_ g hmem
        · intro q hq
          simp only [List.mem_singleton] at hq
          subst hq
          simpa using le_of_lt (adaptiveRange_pos q.ordinal)
        · intro g' hg'
          rcases List.mem_append.1 hg' with h' | h'
          · exact hg g' h'
          · simp only [List.mem_singleton] at h'
            subst h'
            exact hc
      · next h =>
        have hgap : c.ordinal - p.ordinal ≤ adaptiveRange c.ordinal :=
          le_of_not_lt fun hh => h (Or.inl hh)
        refine ih (c :: cs ++ [p]) groups ?_ hg g hmem
        intro q hq
        rcases List.mem_cons.1 hq with rfl | hq
        · simpa using le_of_lt (adaptiveRange_pos q.ordinal)
        · rcases List.mem_append.1 hq with hq | hq
          · exact hc q (List.mem_cons_of_mem _ hq)
          · simp only [List.mem_singleton] at hq
            subst hq
            exact hgap

/-- Claim C5: the tier builder sorts descending by ordinal and walks the
sorted list (first conjunct, the defining equation); on each step it closes
the current tier and restarts with the candidate exactly when the ordinal
gap from the first player of the tier exceeds the adaptive threshold or the
tier already holds 6 players, and appends the candidate otherwise (second
and third conjuncts); the adaptive threshold is 2.0 above ordinal 15, 2.5
above ordinal 5, and 3.0 otherwise (fourth conjunct); consequently every
produced tier keeps all members within the adaptive threshold of its first
player (fifth conjunct). -/
theorem C5_tier_walk (ps rest : List PlayerRating) (p c : PlayerRating)
    (cs : List PlayerRating) (groups : List SkillGroup) (x : ℚ) :
    createSkillGroups ps = groupsLoop (stableSort (keyDesc PlayerRating.ordinal) ps) [] [] ∧
    (c.ordinal - p.ordinal > adaptiveRange c.ordinal ∨ 6 ≤ (c :: cs).length →
      groupsLoop (p :: rest) (c :: cs) groups
        = groupsLoop rest [p] (groups ++ [createGroup (c :: cs) groups.length])) ∧
    (¬(c.ordinal - p.ordinal > adaptiveRange c.ordinal ∨ 6 ≤ (c :: cs).length) →
      groupsLoop (p :: rest) (c :: cs) groups = groupsLoop rest (c :: cs ++ [p]) groups) ∧
    ((15 < x → adaptiveRange x = 2) ∧
      (5 < x → x ≤ 15 → adaptiveRange x = 2.5) ∧
      (x ≤ 5 → adaptiveRange x = 3)) ∧
    (∀ g ∈ createSkillGroups ps, withinRange g.players) := by
  refine ⟨rfl, ?_, ?_, ⟨?_, ?_, ?_⟩, ?_⟩
  · intro h
    simp only [groupsLoop, if_pos h]
  · intro h
    simp only [groupsLoop, if_neg h]
  · intro h15
    simp [adaptiveRange, h15]
  · intro h5 h15
    simp [adaptiveRange, h5, not_lt.2 h15]
  · intro h5
    have h15 : x ≤ 15 := le_trans h5 (by norm_num)
    simp [adaptiveRange, not_lt.2 h5, not_lt.2 h15]
  · exact groupsLoop_range _ [] [] trivial (by simp)

/-- Claim C5 witness: a concrete step, where the candidate at ordinal 0 is
more than 3.0 below the tier head at ordinal 10, closes the tier. -/
theorem C5_witness :
    groupsLoop [{ player := 2, rating := { mu := 0, sigma := 1 }, ordinal := 0 }]
        [{ player := 1, rating := { mu := 10, sigma := 1 }, ordinal := 10 }] []
      = groupsLoop [] [{ player := 2, rating := { mu := 0, sigma := 1 }, ordinal := 0 }]
          ([] ++ [createGroup [{ player := 1, rating := { mu := 10, sigma := 1 }, ordinal := 10 }] 0]) :=
  (C5_tier_walk [] [] { player := 2, rating := { mu := 0, sigma := 1 }, ordinal := 0 }
    { player := 1, rating := { mu := 10, sigma := 1 }, ordinal := 10 } [] [] 0).2.1
    (Or.inl (by norm_num [adaptiveRange]))

/-! ## Claims C6 and C10 -/

/-- Claim C6: on an odd roster with previous sit-out player P, whenever a
roster player with an identifier other than P exists, the policy chooses a
player that is not P, of maximal uncertainty among the players whose
identifier differs from P, and raises no repeat warning; only when every
roster player carries a previously-unmatched identifier does the policy fall
back to the player of maximal uncertainty overall and raise the warning that
the same player sits out twice running. -/
theorem C6_carry_over (players : List PlayerRating) (P : Nat) (prev : List Nat)
    (_hodd : players.length % 2 = 1) :
    ((∃ q ∈ players, q.player ≠ P) →
      ∃ p, chooseSitOut players [P] = some (p, false) ∧ p ∈ players ∧ p.player ≠ P ∧
        ∀ q ∈ players, q.player ≠ P → q.rating.sigma ≤ p.rating.sigma) ∧
    (players ≠ [] → (∀ q ∈ players, q.player ∈ prev) →
      ∃ p, chooseSitOut players prev = some (p, true) ∧ p ∈ players ∧
        ∀ q ∈ players, q.rating.sigma ≤ p.rating.sigma) := by
  constructor
  · rintro ⟨q, hq, hqP⟩
    have hqf : q ∈ players.filter fun r => !(([P] : List Nat).contains r.player) :=
      List.mem_filter.2 ⟨hq, by simp [hqP]⟩
    have hne : (players.filter fun r => !(([P] : List Nat).contains r.player)) ≠ [] := by
      intro e
      rw [e] at hqf
      cases hqf
    cases hr : reduceMaxSigma
        (players.filter fun r => !(([P] : List Nat).contains r.player)) with
    | none => exact absurd ((reduceMaxSigma_none_iff _).1 hr) hne
    | some p =>
      have hpf := reduceMaxSigma_mem hr
      have hpP : p.player ≠ P := by
        have := (List.mem_filter.1 hpf).2
        simpa using this
      refine ⟨p, ?_, List.mem_of_mem_filter hpf, hpP, ?_⟩
      · simp only [chooseSitOut, hr]
        simp [hpP]
      · intro r hrmem hrP
        exact reduceMaxSigma_max hr r (List.mem_filter.2 ⟨hrmem, by simp [hrP]⟩)
  · intro hne hall
    have hfe : (players.filter fun r => !(prev.contains r.player)) = [] := by
      rw [List.filter_eq_nil_iff]
      intro a ha
      simp [hall a ha]
    cases hq : reduceMaxSigma players with
    | none => exact absurd ((reduceMaxSigma_none_iff _).1 hq) hne
    | some p =>
      refine ⟨p, ?_, reduceMaxSigma_mem hq, reduceMaxSigma_max hq⟩
      have hrf : reduceMaxSigma (players.filter fun r => !(prev.contains r.player))
          = none := by
        rw [hfe]
        rfl
      simp only [chooseSitOut, hrf, hq, Option.map_some']
      simp [hall p (reduceMaxSigma_mem hq)]

/-- Claim C6 witness: among three concrete players with previous sit-out 3,
the policy selects a player other than 3 with the larger uncertainty and no
warning. -/
theorem C6_witness :
    ∃ p, chooseSitOut
        [{ player := 1, rating := { mu := 0, sigma := 5 }, ordinal := 0 },
         { player := 2, rating := { mu := 0, sigma := 1 }, ordinal := 0 },
         { player := 3, rating := { mu := 0, sigma := 9 }, ordinal := 0 }] [3]
        = some (p, false) ∧
      p ∈ ([{ player := 1, rating := { mu := 0, sigma := 5 }, ordinal := 0 },
            { player := 2, rating := { mu := 0, sigma := 1 }, ordinal := 0 },
            { player := 3, rating := { mu := 0, sigma := 9 }, ordinal := 0 }] :
            List PlayerRating) ∧
      p.player ≠ 3 ∧
      ∀ q ∈ ([{ player := 1, rating := { mu := 0, sigma := 5 }, ordinal := 0 },
              { player := 2, rating := { mu := 0, sigma := 1 }, ordinal := 0 },
              { player := 3, rating := { mu := 0, sigma := 9 }, ordinal := 0 }] :
              List PlayerRating),
        q.player ≠ 3 → q.rating.sigma ≤ p.rating.sigma :=
  (C6_carry_over
    [{ player := 1, rating := { mu := 0, sigma := 5 }, ordinal := 0 },
     { player := 2, rating := { mu := 0, sigma := 1 }, ordinal := 0 },
     { player := 3, rating := { mu := 0, sigma := 9 }, ordinal := 0 }] 3 [3]
    (by decide)).1
    ⟨{ player := 1, rating := { mu := 0, sigma := 5 }, ordinal := 0 },
      by decide, by decide⟩

/-- Claim C10: on an odd roster, among the eligible sit-out candidates (the
players not previously unmatched, in roster order), the policy picks the
first candidate attaining the maximal uncertainty: every earlier eligible
candidate has strictly smaller uncertainty, because the reduce keeps the
earlier element unless the later one is strictly larger. The choice is a
pure function of the roster and the previously-unmatched list. -/
theorem C10_tie_break (players : List PlayerRating) (prev : List Nat)
    (_hodd : players.length % 2 = 1)
    (hne : players.filter (fun p => !(prev.contains p.player)) ≠ []) :
    ∃ p w l1 l2, chooseSitOut players prev = some (p, w) ∧
      players.filter (fun p => !(prev.contains p.player)) = l1 ++ p :: l2 ∧
      (∀ y ∈ l1, y.rating.sigma < p.rating.sigma) ∧
      (∀ y ∈ players.filter (fun p => !(prev.contains p.player)),
        y.rating.sigma ≤ p.rating.sigma) := by
  cases hr : reduceMaxSigma (players.filter fun p => !(prev.contains p.player)) with
  | none => exact absurd ((reduceMaxSigma_none_iff _).1 hr) hne
  | some p =>
    rcases reduceMaxSigma_first hr with ⟨l1, l2, hsplit, hl1⟩
    refine ⟨p, prev.contains p.player, l1, l2, ?_, hsplit, hl1, reduceMaxSigma_max hr⟩
    simp only [chooseSitOut, hr]

/-- Claim C10 witness: with two eligible candidates sharing the maximal
uncertainty, the policy keeps the earlier one in roster order. -/
theorem C10_witness :
    ∃ p w l1 l2, chooseSitOut
        [{ player := 1, rating := { mu := 0, sigma := 5 }, ordinal := 0 },
         { player := 2, rating := { mu := 0, sigma := 5 }, ordinal := 0 },
         { player := 3, rating := { mu := 0, sigma := 9 }, ordinal := 0 }] [3]
        = some (p, w) ∧
      (([{ player := 1, rating := { mu := 0, sigma := 5 }, ordinal := 0 },
         { player := 2, rating := { mu := 0, sigma := 5 }, ordinal := 0 },
         { player := 3, rating := { mu := 0, sigma := 9 }, ordinal := 0 }] :
         List PlayerRating).filter
          (fun p => !(([3] : List Nat).contains p.player))) = l1 ++ p :: l2 ∧
      (∀ y ∈ l1, y.rating.sigma < p.rating.sigma) ∧
      (∀ y ∈ ([{ player := 1, rating := { mu := 0, sigma := 5 }, ordinal := 0 },
               { player := 2, rating := { mu := 0, sigma := 5 }, ordinal := 0 },
               { player := 3, rating := { mu := 0, sigma := 9 }, ordinal := 0 }] :
               List PlayerRating).filter
          (fun p => !(([3] : List Nat).contains p.player)),
        y.rating.sigma ≤ p.rating.sigma) :=
  C10_tie_break
    [{ player := 1, rating := { mu := 0, sigma := 5 }, ordinal := 0 },
     { player := 2, rating := { mu := 0, sigma := 5 }, ordinal := 0 },
     { player := 3, rating := { mu := 0, sigma := 9 }, ordinal := 0 }] [3]
    (by decide) (by decide)

/-! ## Claim C7 -/

theorem take_append_take_le {n m : Nat} (A B : List α) (hnm : n ≤ m) :
    (A ++ B.take m).take n = (A ++ B).take n := by
  induction A generalizing n with
  | nil =>
    simp only [List.nil_append, List.take_take]
    rw [Nat.min_eq_left hnm]
  | cons a A ih =>
    cases n with
    | zero => rfl
    | succ n =>
      simp only [List.cons_append, List.take_succ_cons]
      rw [ih (Nat.le_of_succ_le hnm)]

theorem foldRounds_matches :
    ∀ (rs : List Match) (h : MatchHistory) (t : String),
      h.«matches».length ≤ h.lookbackRounds * 15 →
      (foldRounds rs t h).«matches» =
        ((rs.reverse.map fun m =>
            ({ player1 := m.player1, player2 := m.player2, timestamp := t } : HistoricalMatch))
          ++ h.«matches»).take (h.lookbackRounds * 15) ∧
      (foldRounds rs t h).lookbackRounds = h.lookbackRounds := by
  intro rs
  induction rs with
  | nil =>
    intro h t hlen
    exact ⟨by simp [foldRounds, List.take_of_length_le hlen], rfl⟩
  | cons r rs ih =>
    intro h t hlen
    have hstep : foldRounds (r :: rs) t h = foldRounds rs t (updateMatchHistory [r] h t) :=
      rfl
    have hlb : (updateMatchHistory [r] h t).lookbackRounds = h.lookbackRounds := rfl
    have hmt : (updateMatchHistory [r] h t).«matches» =
        (({ player1 := r.player1, player2 := r.player2, timestamp := t } : HistoricalMatch)
          :: h.«matches»).take (h.lookbackRounds * 15) := rfl
    have hlen2 : (updateMatchHistory [r] h t).«matches».length ≤
        (updateMatchHistory [r] h t).lookbackRounds * 15 := by
      rw [hmt, hlb]
      exact List.length_take_le _ _
    rcases ih (updateMatchHistory [r] h t) t hlen2 with ⟨h1, h2⟩
    rw [hstep]
    refine ⟨?_, by rw [h2, hlb]⟩
    rw [h1, hlb, hmt]
    rw [take_append_take_le _ _ (le_refl (h.lookbackRounds * 15))]
    simp [List.append_assoc]

/-- Claim C7: updateMatchHistory prepends the stamped pairings of the round
to the front of the window and truncates to lookbackRounds times 15 entries,
keeping lookbackRounds unchanged; hasRecentMatch holds exactly when some
retained entry equals the unordered pair; and after a run of single-pairing
rounds from an empty window, the retained entries are exactly the stamped
last lookbackRounds times 15 pairings in most-recent-first order, so that
once more rounds than that have been recorded, any pair absent from the
retained window (in particular the evicted oldest pairing) is reported as
not recent. -/
theorem C7_history (ms : List Match) (h : MatchHistory) (t : String) (x y : Nat)
    (rs : List Match) (L : Nat) :
    (updateMatchHistory ms h t).«matches» =
      ((ms.map fun m =>
          ({ player1 := m.player1, player2 := m.player2, timestamp := t } : HistoricalMatch))
        ++ h.«matches»).take (h.lookbackRounds * 15) ∧
    (updateMatchHistory ms h t).lookbackRounds = h.lookbackRounds ∧
    (hasRecentMatch x y h = true ↔ ∃ e ∈ h.«matches»,
        (e.player1 = x ∧ e.player2 = y) ∨ (e.player1 = y ∧ e.player2 = x)) ∧
    ((foldRounds rs t { «matches» := [], lookbackRounds := L }).«matches» =
      (rs.reverse.take (L * 15)).map fun m =>
        ({ player1 := m.player1, player2 := m.player2, timestamp := t } : HistoricalMatch)) ∧
    (L * 15 < rs.length →
      (∀ m ∈ rs.reverse.take (L * 15),
          ¬((m.player1 = x ∧ m.player2 = y) ∨ (m.player1 = y ∧ m.player2 = x))) →
      hasRecentMatch x y (foldRounds rs t { «matches» := [], lookbackRounds := L }) = false) := by
  have hiff : ∀ H : MatchHistory, (hasRecentMatch x y H = true ↔ ∃ e ∈ H.«matches»,
      (e.player1 = x ∧ e.player2 = y) ∨ (e.player1 = y ∧ e.player2 = x)) := by
    intro H
    simp [hasRecentMatch, List.any_eq_true]
  have hfold : (foldRounds rs t { «matches» := [], lookbackRounds := L }).«matches» =
      (rs.reverse.take (L * 15)).map fun m =>
        ({ player1 := m.player1, player2 := m.player2, timestamp := t } : HistoricalMatch) := by
    have hc := (foldRounds_matches rs { «matches» := [], lookbackRounds := L } t
      (by simp)).1
    rw [hc]
    simp [List.map_take]
  refine ⟨rfl, rfl, hiff h, hfold, ?_⟩
  intro _ hnone
  rw [← Bool.not_eq_true]
  intro htrue
  rcases (hiff _).1 htrue with ⟨e, he, hpair⟩
  rw [hfold] at he
  rcases List.mem_map.1 he with ⟨m, hm, rfl⟩
  exact hnone m hm hpair

/-- Claim C7 witness: with lookbackRounds 1 and sixteen recorded
single-pairing rounds, the pairing of the first round is evicted and no
longer reported as recent. -/
theorem C7_witness :
    hasRecentMatch 0 100
      (foldRounds ((List.range 16).map fun i =>
          { player1 := i, player2 := i + 100, skillDifference := 0,
            averageSkill := 0, confidence := 1 }) "t"
        { «matches» := [], lookbackRounds := 1 }) = false :=
  (C7_history [] { «matches» := [], lookbackRounds := 1 } "t" 0 100
    ((List.range 16).map fun i =>
      { player1 := i, player2 := i + 100, skillDifference := 0,
        averageSkill := 0, confidence := 1 }) 1).2.2.2.2
    (by decide) (by decide)

/-! ## Claim C8 -/

/-- Claim C8 counterexample: no fail-fast path or configuration option
exists around unresolvable roster identifiers. At the concrete roster [7]
with an empty rating table, the tier-aware loader unconditionally fabricates
the new-player default (prior rating, ordinal 0) for identifier 7, and the
tier-naive variant silently drops the identifier; neither consults any
configuration and neither fails. -/
theorem C8_counterexample :
    buildActiveRatings defaultPriorRating [] [7] =
      [{ player := 7, rating := defaultPriorRating, ordinal := 0 }] ∧
    filterActiveRatings [] [7] = [] :=
  ⟨rfl, rfl⟩

/-- Claim C8 (amended): for every active roster identifier with no
resolvable rating, the tier-aware engine unconditionally applies the
explicit new-player default rating (mean and uncertainty at the rating
model prior, ordinal 0), and the tier-naive variant silently excludes the
identifier (its output only contains stored rating entries); there is no
configuration option and no fail-fast path. -/
theorem C8_default_rating (prior : Rating) (results : List PlayerRating)
    (roster : List Nat) (name : Nat)
    (hmem : name ∈ roster) (hnone : lookupRating results name = none) :
    ({ player := name, rating := prior, ordinal := 0 } : PlayerRating) ∈
        buildActiveRatings prior results roster ∧
    ∀ p ∈ filterActiveRatings results roster, p ∈ results := by
  constructor
  · have := List.mem_map_of_mem (fun playerName =>
      match lookupRating results playerName with
      | some p => p
      | none => { player := playerName, rating := prior, ordinal := 0 }) hmem
    simpa [buildActiveRatings, hnone] using this
  · intro p hp
    exact List.mem_of_mem_filter hp

/-- Claim C8 witness: the amended behaviour at the concrete roster [7] with
an empty rating table and the openskill prior. -/
theorem C8_witness :
    ({ player := 7, rating := defaultPriorRating, ordinal := 0 } : PlayerRating) ∈
        buildActiveRatings defaultPriorRating [] [7] ∧
    ∀ p ∈ filterActiveRatings [] [7], p ∈ ([] : List PlayerRating) :=
  C8_default_rating defaultPriorRating [] [7] 7 (by decide) (by rfl)

/-! ## Claim C9 -/

/-- Claim C9: a missing history file and a history file that fails to parse
both load as the empty window with the default lookbackRounds of 3, and the
round computation on such a load is exactly the round computation on the
empty window, for both engines: the round still completes. -/
theorem C9_load_recovery (pd : Rating → Rating → ℚ) (prior : Rating)
    (results : List PlayerRating) (roster prev : List Nat) :
    loadMatchHistory .missing = { «matches» := [], lookbackRounds := 3 } ∧
    loadMatchHistory .corrupt = { «matches» := [], lookbackRounds := 3 } ∧
    createMatchmaking pd prior results roster prev (loadMatchHistory .missing) =
      createMatchmaking pd prior results roster prev
        { «matches» := [], lookbackRounds := 3 } ∧
    createMatchmaking pd prior results roster prev (loadMatchHistory .corrupt) =
      createMatchmaking pd prior results roster prev
        { «matches» := [], lookbackRounds := 3 } ∧
    createMatchmakingNaive pd results roster (loadMatchHistory .missing) =
      createMatchmakingNaive pd results roster
        { «matches» := [], lookbackRounds := 3 } ∧
    createMatchmakingNaive pd results roster (loadMatchHistory .corrupt) =
      createMatchmakingNaive pd results roster
        { «matches» := [], lookbackRounds := 3 } :=
  ⟨rfl, rfl, rfl, rfl, rfl, rfl⟩

end Skillsheet
